import Mathlib

/-!
Verification development for the `compose` tool
(`tools/compose/src/main.rs` of the MIPT Rust course repository).

The redaction engine operates on the lines of one source file.  We embed it
shallowly:

* a line of text is a `List Char` (Rust byte positions coincide with
  character positions for the ASCII patterns the tool searches for);
* `parse_token` mirrors the Rust function of the same name, including its
  use of `str::find`, `str::trim_end`, `str::starts_with` and
  `str::split_inclusive(",")`;
* `find_token`, `resolveEnd` (the inner `while let` loop of the
  `BeginPrivate` arm) and `processFromF` (the outer `while let` loop of
  `process_source`) mirror the scanning loops; the loops of the source
  terminate because the cursor strictly increases, which we expose here by
  giving `processFromF` and `resolveEnd` a fuel parameter and proving that
  any fuel larger than the number of remaining lines yields the same result;
* `rustLines` mirrors `str::lines` (split after `'\n'`, strip a final
  `"\n"` or `"\r\n"` from each piece), and `render` mirrors the
  `dst += line; dst += "\n"` output convention;
* Rust `char::is_whitespace` is modelled by `Char.isWhitespace`;
* `prune_entries` mirrors the pruning pass: the destination root is a
  listing of named trees, and removal of a name deletes the whole named
  subtree, as `fs::remove_file` / `fs::remove_dir_all` do.
-/

abbrev Line := List Char

inductive TokenKind where
  | Private
  | BeginPrivate
  | EndPrivate
deriving DecidableEq

inductive TokenProperty where
  | NoHint
  | Unimplemented
deriving DecidableEq

structure Token where
  kind : TokenKind
  properties : List TokenProperty
deriving DecidableEq

instance {ε α : Type} [DecidableEq ε] [DecidableEq α] : DecidableEq (Except ε α) := fun a b =>
  match a, b with
  | .ok x, .ok y =>
    if h : x = y then .isTrue (by rw [h]) else .isFalse (fun hc => h (Except.ok.inj hc))
  | .error x, .error y =>
    if h : x = y then .isTrue (by rw [h]) else .isFalse (fun hc => h (Except.error.inj hc))
  | .ok _, .error _ => .isFalse (fun hc => Except.noConfusion hc)
  | .error _, .ok _ => .isFalse (fun hc => Except.noConfusion hc)

/-- First index at which `pat` occurs as a contiguous sublist, like Rust
`str::find` restricted to the character level. -/
def findSub (pat : List Char) : List Char → Option Nat
  | [] => if pat.isEmpty then some 0 else none
  | c :: rest =>
    if pat.isPrefixOf (c :: rest) then some 0
    else (findSub pat rest).map (· + 1)

/-- Rust `str::trim_end` (restricted to `Char.isWhitespace`). -/
def trimEnd (s : List Char) : List Char :=
  (s.reverse.dropWhile Char.isWhitespace).reverse

/-- Rust `str::split_inclusive(",")`: every piece except possibly the last
keeps its terminating comma; the empty string yields no pieces. -/
def splitInclusiveComma : List Char → List (List Char)
  | [] => []
  | c :: rest =>
    if c = ',' then [c] :: splitInclusiveComma rest
    else
      match splitInclusiveComma rest with
      | [] => [[c]]
      | p :: ps => (c :: p) :: ps

/-- The property-matching loop of `parse_token` (`for prop in
properties_str.split_inclusive(",")`). -/
def parseProps : List (List Char) → Except String (List TokenProperty)
  | [] => .ok []
  | p :: ps =>
    if p = "no_hint".data then
      match parseProps ps with
      | .error e => .error e
      | .ok rest => .ok (.NoHint :: rest)
    else if p = "unimplemented".data then
      match parseProps ps with
      | .error e => .error e
      | .ok rest => .ok (.Unimplemented :: rest)
    else .error ("unknown property: " ++ p.asString)

/-- `parse_token` of the source: recognize `// ... compose::<kw>[(...)]`
on one line. -/
def parse_token (line : Line) : Except String (Option Token) :=
  match findSub "//".data line with
  | none => .ok none
  | some pos =>
    let comment := line.drop pos
    match findSub "compose::".data comment with
    | none => .ok none
    | some cpos =>
      let cmd := comment.drop (cpos + "compose::".length)
      let kindRes : Except String TokenKind :=
        if ("private".data).isPrefixOf cmd then .ok .Private
        else if ("begin_private".data).isPrefixOf cmd then .ok .BeginPrivate
        else if ("end_private".data).isPrefixOf cmd then .ok .EndPrivate
        else .error ("unknown compose command: " ++ cmd.asString)
      match kindRes with
      | .error e => .error e
      | .ok kind =>
        let propsRes : Except String (List Char) :=
          match findSub ['('] cmd with
          | some p =>
            if (trimEnd cmd).getLast? = some ')' then
              .ok ((cmd.take ((trimEnd cmd).length - 1)).drop (p + 1))
            else .error "unclosed '('"
          | none => .ok []
        match propsRes with
        | .error e => .error e
        | .ok propertiesStr =>
          match parseProps (splitInclusiveComma propertiesStr) with
          | .error e => .error e
          | .ok properties => .ok (some { kind := kind, properties := properties })

/-- The loop body of `find_token`: `rel` counts lines from the start of the
scan (used, as in the source, for the error context message), `start` is the
absolute index of the scan start (used for the returned position). -/
def find_token_aux : List Line → Nat → Nat → Except String (Option (Nat × Token))
  | [], _, _ => .ok none
  | l :: rest, rel, start =>
    match parse_token l with
    | .error e =>
      .error ("failed to parse token on line " ++ toString (rel + 1) ++ ": " ++ e)
    | .ok none => find_token_aux rest (rel + 1) start
    | .ok (some tok) => .ok (some (rel + start, tok))

/-- `find_token` of the source: first directive at or after `start`. -/
def find_token (lines : List Line) (start : Nat) : Except String (Option (Nat × Token)) :=
  find_token_aux (lines.drop start) 0 start

/-- The inner `while let` loop of the `BeginPrivate` arm of
`process_source`: scan from `pos` for the closing `EndPrivate` of the block
opened on line `b`, returning the exclusive end of the region. -/
def resolveEnd : Nat → List Line → Nat → Nat → Except String Nat
  | 0, _, _, _ => .error "out of fuel"
  | fuel + 1, lines, pos, b =>
    match find_token lines pos with
    | .error e => .error e
    | .ok none => .error ("unclosed 'begin_private' on line " ++ toString (b + 1))
    | .ok (some (k, tok)) =>
      match tok.kind with
      | .BeginPrivate => .error ("nested 'begin_private' on line " ++ toString (k + 1))
      | .Private => resolveEnd fuel lines (k + 1) b
      | .EndPrivate => .ok (k + 1)

/-- The `match token.kind` computing `end` in `process_source`, for the
directive found on line `b`. -/
def regionEnd (lines : List Line) (b : Nat) (k : TokenKind) : Except String Nat :=
  match k with
  | .EndPrivate => .error ("unpaired 'end_private' on line " ++ toString (b + 1))
  | .Private => .ok (b + 1)
  | .BeginPrivate => resolveEnd (lines.length + 1) lines (b + 1) b

/-- Rust `line.trim().is_empty()`. -/
def isBlank (l : Line) : Bool := l.all Char.isWhitespace

/-- Leading whitespace of a line (the `for c in lines[begin].chars()` loop
of `insert_line`). -/
def indentOf (l : Line) : Line := l.takeWhile Char.isWhitespace

/-- Output convention of `process_source`: each copied line is followed by
one `'\n'`. -/
def render (ls : List Line) : List Char :=
  ls.foldr (fun l acc => l ++ '\n' :: acc) []

/-- The text `process_source` emits for a private region whose directive is
on line `b`: nothing under `NoHint`, otherwise the placeholder line and,
under `Unimplemented`, the extra failing line, each indented like line `b`. -/
def emission (lines : List Line) (b : Nat) (props : List TokenProperty) : List Char :=
  if props.contains .NoHint then []
  else
    indentOf (lines.getD b []) ++ "// TODO: your code here.\n".data ++
      (if props.contains .Unimplemented then
        indentOf (lines.getD b []) ++ "unimplemented!()\n".data
      else [])

/-- The emitted placeholder text of a region, phrased through the directive
line itself rather than its index: equal to `emission` when line `b` is the
directive line (proved below). -/
def hintFor (props : List TokenProperty) (ind : Line) : List Char :=
  if props.contains .NoHint then []
  else
    ind ++ "// TODO: your code here.\n".data ++
      (if props.contains .Unimplemented then ind ++ "unimplemented!()\n".data else [])

/-- The next cursor position of `process_source` after handling a region
`[b, e)`: under `NoHint` a trailing blank line is absorbed when the lines
around the region are both blank. -/
def blockNext (lines : List Line) (b e : Nat) (props : List TokenProperty) : Nat :=
  if props.contains .NoHint then
    if 0 < b ∧ isBlank (lines.getD (b - 1) []) = true ∧ e < lines.length ∧
        isBlank (lines.getD e []) = true then
      e + 1
    else e
  else e

/-- The outer `while let` loop of `process_source`, with a fuel parameter.
Any fuel exceeding `lines.length - pos` gives the loop's result (proved
below); `processLines` instantiates a sufficient fuel. -/
def processFromF : Nat → List Line → Nat → Except String (List Char)
  | 0, _, _ => .error "out of fuel"
  | fuel + 1, lines, pos =>
    match find_token lines pos with
    | .error e => .error e
    | .ok none => .ok (render (lines.drop pos))
    | .ok (some (b, tok)) =>
      match regionEnd lines b tok.kind with
      | .error e => .error e
      | .ok e =>
        (processFromF fuel lines (blockNext lines b e tok.properties)).map
          (fun r => render ((lines.drop pos).take (b - pos)) ++
            (emission lines b tok.properties ++ r))

/-- `process_source` on an already-split list of lines. -/
def processLines (lines : List Line) : Except String (List Char) :=
  processFromF (lines.length + 1) lines 0

/-- Rust `str::split_inclusive('\n')`. -/
def splitInclusiveNL : List Char → List (List Char)
  | [] => []
  | c :: rest =>
    if c = '\n' then [c] :: splitInclusiveNL rest
    else
      match splitInclusiveNL rest with
      | [] => [[c]]
      | p :: ps => (c :: p) :: ps

/-- The per-line map of Rust `str::lines`: strip one trailing `"\n"`, and
then one trailing `'\r'` only if the `"\n"` was present. -/
def lineMap (l : List Char) : List Char :=
  if l.getLast? = some '\n' then
    let s := l.dropLast
    if s.getLast? = some '\r' then s.dropLast else s
  else l

/-- Rust `str::lines`. -/
def rustLines (src : List Char) : List Line :=
  (splitInclusiveNL src).map lineMap

/-- `process_source` of the source, at the character level. -/
def process_source (src : List Char) : Except String (List Char) :=
  processLines (rustLines src)

/-- Keyword spelling of each directive kind. -/
def kwChars : TokenKind → List Char
  | .Private => "private".data
  | .BeginPrivate => "begin_private".data
  | .EndPrivate => "end_private".data

/-- A destination-tree entry: a plain file or a directory with named
children. -/
inductive FsTree where
  | file : FsTree
  | dir : List (String × FsTree) → FsTree

/-- Removing a top-level name deletes the whole named subtree
(`fs::remove_file` / `fs::remove_dir_all`). -/
def removeEntry (name : String) (st : List (String × FsTree)) : List (String × FsTree) :=
  st.filter (fun e => e.1 != name)

/-- The Spare Set of `prune_entries`: declared entries, never-remove names
and caller-supplied spare names. -/
def spareSet (entries no_remove spare : List String) : List String :=
  entries ++ no_remove ++ spare

/-- `prune_entries` of the source: walk the destination root's listing and
remove every entry whose name is not spared. -/
def prune_entries (spare : List String) (st : List (String × FsTree)) :
    List (String × FsTree) :=
  (st.map Prod.fst).foldl
    (fun acc name => if spare.contains name then acc else removeEntry name acc) st

/-! Basic lemmas about the directive scan. -/

theorem aux_hit {l : Line} {t : Token} (R : List Line) (rel start : Nat)
    (h : parse_token l = .ok (some t)) :
    find_token_aux (l :: R) rel start = .ok (some (rel + start, t)) := by
  simp [find_token_aux, h]

theorem aux_skip {l : Line} (R : List Line) (rel start : Nat)
    (h : parse_token l = .ok none) :
    find_token_aux (l :: R) rel start = find_token_aux R (rel + 1) start := by
  simp [find_token_aux, h]

theorem aux_none : ∀ (L : List Line), (∀ l ∈ L, parse_token l = .ok none) →
    ∀ rel start, find_token_aux L rel start = .ok none
  | [], _, _, _ => rfl
  | l :: R, h, rel, start => by
    rw [aux_skip R rel start (h l (List.mem_cons_self l R))]
    exact aux_none R (fun x hx => h x (List.mem_cons_of_mem l hx)) (rel + 1) start

theorem aux_ge : ∀ (L : List Line) (rel start k : Nat) (t : Token),
    find_token_aux L rel start = .ok (some (k, t)) → rel + start ≤ k := by
  intro L
  induction L with
  | nil => intro rel start k t h; simp [find_token_aux] at h
  | cons l R ih =>
    intro rel start k t h
    cases hp : parse_token l with
    | error e => simp [find_token_aux, hp] at h
    | ok o =>
      cases o with
      | none =>
        rw [aux_skip R rel start hp] at h
        have := ih (rel + 1) start k t h
        omega
      | some tok =>
        rw [aux_hit R rel start hp] at h
        simp at h
        omega

theorem find_token_ge {lines : List Line} {pos k : Nat} {t : Token}
    (h : find_token lines pos = .ok (some (k, t))) : pos ≤ k := by
  have := aux_ge (lines.drop pos) 0 pos k t h
  omega

theorem find_token_pos_lt {lines : List Line} {pos k : Nat} {t : Token}
    (h : find_token lines pos = .ok (some (k, t))) : pos < lines.length := by
  by_contra hc
  push_neg at hc
  have hnil : lines.drop pos = [] := List.drop_of_length_le hc
  unfold find_token at h
  rw [hnil] at h
  simp [find_token_aux] at h

/-- The scan starting at the head of this list of lines reaches a directive
before it reaches a line that fails to parse. -/
inductive ScanSafe : List Line → Prop where
  | nil : ScanSafe []
  | hit {l : Line} (rest : List Line) {t : Token} (h : parse_token l = .ok (some t)) :
      ScanSafe (l :: rest)
  | skip {l : Line} {rest : List Line} (h : parse_token l = .ok none)
      (hs : ScanSafe rest) : ScanSafe (l :: rest)

theorem scanSafe_ok {T : List Line} (hs : ScanSafe T) :
    ∀ rel start, ∃ r, find_token_aux T rel start = .ok r := by
  induction hs with
  | nil => intro rel start; exact ⟨none, rfl⟩
  | hit rest h => intro rel start; exact ⟨_, aux_hit rest _ _ h⟩
  | skip h _ ih => intro rel start; rw [aux_skip _ _ _ h]; exact ih (rel + 1) start

theorem scanSafe_shift {T : List Line} (hs : ScanSafe T) :
    ∀ rel₁ start₁ rel₂ start₂, rel₁ + start₁ = rel₂ + start₂ →
      find_token_aux T rel₁ start₁ = find_token_aux T rel₂ start₂ := by
  induction hs with
  | nil => intros; rfl
  | hit rest h => intro r1 s1 r2 s2 he; rw [aux_hit _ _ _ h, aux_hit _ _ _ h, he]
  | skip h _ ih =>
    intro r1 s1 r2 s2 he
    rw [aux_skip _ _ _ h, aux_skip _ _ _ h]
    exact ih (r1 + 1) s1 (r2 + 1) s2 (by omega)

theorem scanSafe_append : ∀ (I : List Line) {el : Line} {S : List Line} {t : Token},
    (∀ l ∈ I, parse_token l = .ok none ∨ ∃ ps, parse_token l = .ok (some ⟨.Private, ps⟩)) →
    parse_token el = .ok (some t) → ScanSafe (I ++ el :: S)
  | [], _, S, _, _, hel => ScanSafe.hit S hel
  | l :: I, el, S, t, hI, hel => by
    rcases hI l (List.mem_cons_self l I) with h | ⟨ps, h⟩
    · exact ScanSafe.skip h
        (scanSafe_append I (fun x hx => hI x (List.mem_cons_of_mem l hx)) hel)
    · exact ScanSafe.hit _ h

theorem scanSafe_nones : ∀ (P : List Line) {T : List Line},
    (∀ l ∈ P, parse_token l = .ok none) → ScanSafe T → ScanSafe (P ++ T)
  | [], _, _, hs => hs
  | l :: P, _, hP, hs =>
    ScanSafe.skip (hP l (List.mem_cons_self l P))
      (scanSafe_nones P (fun x hx => hP x (List.mem_cons_of_mem l hx)) hs)

theorem drop_succ_of_drop {lines : List Line} {pos : Nat} {l : Line} {T : List Line}
    (h : lines.drop pos = l :: T) : lines.drop (pos + 1) = T := by
  have h2 := List.drop_drop 1 pos lines
  rw [h] at h2
  simpa using h2.symm

theorem dropEq_mono {lines lines' : List Line} {c d : Nat}
    (h : lines.drop c = lines'.drop c) (hcd : c ≤ d) :
    lines.drop d = lines'.drop d := by
  have h1 := List.drop_drop (d - c) c lines
  have h2 := List.drop_drop (d - c) c lines'
  have hc : c + (d - c) = d := by omega
  rw [hc] at h1 h2
  rw [← h1, ← h2, h]

theorem getD_eq_of_dropEq {lines lines' : List Line} {c i : Nat}
    (h : lines.drop c = lines'.drop c) (hci : c ≤ i) :
    lines.getD i [] = lines'.getD i [] := by
  rw [List.getD_eq_getElem?_getD, List.getD_eq_getElem?_getD]
  have h1 := List.getElem?_drop lines c (i - c)
  have h2 := List.getElem?_drop lines' c (i - c)
  have hc : c + (i - c) = i := by omega
  rw [hc] at h1 h2
  rw [← h1, ← h2, h]

/-! Unfolding lemmas for the fueled loops. -/

theorem resolveEnd_succ (fuel : Nat) (lines : List Line) (pos b : Nat) :
    resolveEnd (fuel + 1) lines pos b =
      match find_token lines pos with
      | .error e => .error e
      | .ok none => .error ("unclosed 'begin_private' on line " ++ toString (b + 1))
      | .ok (some (k, tok)) =>
        match tok.kind with
        | .BeginPrivate => .error ("nested 'begin_private' on line " ++ toString (k + 1))
        | .Private => resolveEnd fuel lines (k + 1) b
        | .EndPrivate => .ok (k + 1) := rfl

theorem processFromF_succ (fuel : Nat) (lines : List Line) (pos : Nat) :
    processFromF (fuel + 1) lines pos =
      match find_token lines pos with
      | .error e => .error e
      | .ok none => .ok (render (lines.drop pos))
      | .ok (some (b, tok)) =>
        match regionEnd lines b tok.kind with
        | .error e => .error e
        | .ok e =>
          (processFromF fuel lines (blockNext lines b e tok.properties)).map
            (fun r => render ((lines.drop pos).take (b - pos)) ++
              (emission lines b tok.properties ++ r)) := rfl

/-! The inner loop resolving a `BeginPrivate ... EndPrivate` block. -/

theorem resolveEnd_interior :
    ∀ (I : List Line) {lines : List Line} {el : Line} {S : List Line}
      {pe : List TokenProperty} (fuel pos b : Nat),
      I.length < fuel →
      lines.drop pos = I ++ el :: S →
      (∀ l ∈ I, parse_token l = .ok none ∨ ∃ ps, parse_token l = .ok (some ⟨.Private, ps⟩)) →
      parse_token el = .ok (some ⟨.EndPrivate, pe⟩) →
      resolveEnd fuel lines pos b = .ok (pos + I.length + 1) := by
  intro I
  induction I with
  | nil =>
    intro lines el S pe fuel pos b hfuel hd _ hel
    obtain ⟨f, rfl⟩ : ∃ f, fuel = f + 1 := ⟨fuel - 1, by omega⟩
    have hft : find_token lines pos = .ok (some (pos, ⟨.EndPrivate, pe⟩)) := by
      unfold find_token
      rw [hd]
      simp only [List.nil_append]
      rw [aux_hit _ _ _ hel]
      norm_num
    rw [resolveEnd_succ, hft]
    simp
  | cons l I ih =>
    intro lines el S pe fuel pos b hfuel hd hI hel
    obtain ⟨f, rfl⟩ : ∃ f, fuel = f + 1 := ⟨fuel - 1, by omega⟩
    have hd' : lines.drop (pos + 1) = I ++ el :: S :=
      drop_succ_of_drop (by rw [hd]; rfl)
    have hItail : ∀ x ∈ I, parse_token x = .ok none ∨
        ∃ ps, parse_token x = .ok (some ⟨.Private, ps⟩) :=
      fun x hx => hI x (List.mem_cons_of_mem l hx)
    rcases hI l (List.mem_cons_self l I) with hnone | ⟨ps, hpriv⟩
    · have hsafe : ScanSafe (I ++ el :: S) := scanSafe_append I hItail hel
      have hft : find_token lines pos = find_token lines (pos + 1) := by
        unfold find_token
        rw [hd, hd']
        simp only [List.cons_append]
        rw [aux_skip _ _ _ hnone]
        exact scanSafe_shift hsafe 1 pos 0 (pos + 1) (by omega)
      have hstep : resolveEnd (f + 1) lines pos b = resolveEnd (f + 1) lines (pos + 1) b := by
        rw [resolveEnd_succ, resolveEnd_succ, hft]
      rw [hstep, ih (f + 1) (pos + 1) b (by simp at hfuel; omega) hd' hItail hel]
      congr 1
      simp only [List.length_cons]
      omega
    · have hft : find_token lines pos = .ok (some (pos, ⟨.Private, ps⟩)) := by
        unfold find_token
        rw [hd]
        simp only [List.cons_append]
        rw [aux_hit _ _ _ hpriv]
        norm_num
      rw [resolveEnd_succ, hft]
      dsimp only
      rw [ih f (pos + 1) b (by simp at hfuel; omega) hd' hItail hel]
      congr 1
      simp only [List.length_cons]
      omega

theorem resolveEnd_lt : ∀ (fuel : Nat) {lines : List Line} {p b e : Nat},
    resolveEnd fuel lines p b = .ok e → p < e := by
  intro fuel
  induction fuel with
  | zero => intro lines p b e h; simp [resolveEnd] at h
  | succ f ih =>
    intro lines p b e h
    rw [resolveEnd_succ] at h
    cases hf : find_token lines p with
    | error e' => rw [hf] at h; simp at h
    | ok o =>
      cases o with
      | none => rw [hf] at h; simp at h
      | some kt =>
        obtain ⟨k, tok⟩ := kt
        rw [hf] at h
        dsimp only at h
        have hk : p ≤ k := find_token_ge hf
        cases htk : tok.kind with
        | BeginPrivate => rw [htk] at h; simp at h
        | EndPrivate => rw [htk] at h; simp at h; omega
        | Private =>
          rw [htk] at h
          dsimp only at h
          have := ih h
          omega

theorem resolveEnd_congr : ∀ (fuel : Nat) {lines lines' : List Line} {p b : Nat},
    lines.drop p = lines'.drop p →
    resolveEnd fuel lines p b = resolveEnd fuel lines' p b := by
  intro fuel
  induction fuel with
  | zero => intros; rfl
  | succ f ih =>
    intro lines lines' p b h
    have hf : find_token lines p = find_token lines' p := by
      unfold find_token; rw [h]
    rw [resolveEnd_succ, resolveEnd_succ, hf]
    cases hv : find_token lines' p with
    | error e => rfl
    | ok o =>
      cases o with
      | none => rfl
      | some kt =>
        obtain ⟨k, tok⟩ := kt
        dsimp only
        cases htk : tok.kind with
        | BeginPrivate => rfl
        | EndPrivate => rfl
        | Private =>
          dsimp only
          have hk : p ≤ k := find_token_ge hv
          exact ih (dropEq_mono h (by omega))

/-! Step lemmas for the outer loop of `process_source`. -/

theorem stepNone {lines : List Line} {pos : Nat} {l : Line} {T : List Line} (f : Nat)
    (hl : parse_token l = .ok none) (hd : lines.drop pos = l :: T) (hs : ScanSafe T) :
    processFromF (f + 1) lines pos =
      (processFromF (f + 1) lines (pos + 1)).map (fun r => l ++ '\n' :: r) := by
  have hd1 : lines.drop (pos + 1) = T := drop_succ_of_drop hd
  obtain ⟨r, hr⟩ := scanSafe_ok hs 1 pos
  have hft : find_token lines pos = .ok r := by
    unfold find_token
    rw [hd, aux_skip _ _ _ hl]
    exact hr
  have hft2 : find_token lines (pos + 1) = .ok r := by
    unfold find_token
    rw [hd1, scanSafe_shift hs 0 (pos + 1) 1 pos (by omega)]
    exact hr
  rw [processFromF_succ, processFromF_succ, hft, hft2]
  cases r with
  | none => simp [hd, hd1, render, Except.map]
  | some kt =>
    obtain ⟨b, tok⟩ := kt
    dsimp only
    have hb : 1 + pos ≤ b := aux_ge _ 1 pos b tok hr
    cases he : regionEnd lines b tok.kind with
    | error e => simp [Except.map]
    | ok e =>
      have hcopy : (lines.drop pos).take (b - pos) =
          l :: (lines.drop (pos + 1)).take (b - (pos + 1)) := by
        rw [hd, hd1]
        have hbp : b - pos = (b - (pos + 1)) + 1 := by omega
        rw [hbp, List.take_succ_cons]
      cases hrec : processFromF f lines (blockNext lines b e tok.properties) with
      | error e2 => simp [Except.map, hrec]
      | ok rr =>
        simp only [Except.map, hrec, hcopy, render, List.foldr_cons]
        simp [List.append_assoc]

theorem skipPrefix : ∀ (P : List Line) {lines T : List Line} {pos : Nat} (f : Nat),
    (∀ l ∈ P, parse_token l = .ok none) →
    lines.drop pos = P ++ T → ScanSafe T →
    processFromF (f + 1) lines pos =
      (processFromF (f + 1) lines (pos + P.length)).map (fun r => render P ++ r)
  | [], lines, T, pos, f, _, hd, hs => by
    cases h : processFromF (f + 1) lines pos with
    | error e => simp [h, Except.map, render]
    | ok r => simp [h, Except.map, render]
  | l :: P, lines, T, pos, f, hP, hd, hs => by
    have h1 : parse_token l = .ok none := hP l (List.mem_cons_self l P)
    have hPtail : ∀ x ∈ P, parse_token x = .ok none :=
      fun x hx => hP x (List.mem_cons_of_mem l hx)
    have hsafe : ScanSafe (P ++ T) := scanSafe_nones P hPtail hs
    have hd' : lines.drop pos = l :: (P ++ T) := by rw [hd]; rfl
    rw [stepNone f h1 hd' hsafe]
    rw [skipPrefix P f hPtail (drop_succ_of_drop hd') hs]
    have harith : pos + 1 + P.length = pos + (l :: P).length := by
      simp only [List.length_cons]
      omega
    rw [harith]
    cases h : processFromF (f + 1) lines (pos + (l :: P).length) with
    | error e => simp [Except.map]
    | ok r => simp [Except.map, render, List.append_assoc]

theorem emitStep {lines : List Line} {pos : Nat} {tl : Line} {T : List Line} {tok : Token}
    {e : Nat} (f : Nat)
    (hd : lines.drop pos = tl :: T) (ht : parse_token tl = .ok (some tok))
    (he : regionEnd lines pos tok.kind = .ok e) :
    processFromF (f + 1) lines pos =
      (processFromF f lines (blockNext lines pos e tok.properties)).map
        (fun r => emission lines pos tok.properties ++ r) := by
  have hft : find_token lines pos = .ok (some (pos, tok)) := by
    unfold find_token
    rw [hd, aux_hit _ _ _ ht]
    norm_num
  rw [processFromF_succ, hft]
  dsimp only
  rw [he]
  have hz : pos - pos = 0 := by omega
  cases hrec : processFromF f lines (blockNext lines pos e tok.properties) with
  | error e2 => simp [Except.map, hrec]
  | ok rr => simp [Except.map, hrec, hz, render]

theorem blockNext_ge {lines : List Line} {b e : Nat} (props : List TokenProperty) :
    e ≤ blockNext lines b e props := by
  unfold blockNext
  split
  · split
    · omega
    · omega
  · omega

theorem regionEnd_gt {lines : List Line} {b e : Nat} {k : TokenKind}
    (h : regionEnd lines b k = .ok e) : b < e := by
  cases k with
  | EndPrivate => simp [regionEnd] at h
  | Private => simp [regionEnd] at h; omega
  | BeginPrivate =>
    simp only [regionEnd] at h
    have := resolveEnd_lt _ h
    omega

theorem processFromF_stable : ∀ (f₁ : Nat) {f₂ : Nat} {lines : List Line} {pos : Nat},
    lines.length - pos < f₁ → lines.length - pos < f₂ →
    processFromF f₁ lines pos = processFromF f₂ lines pos := by
  intro f₁
  induction f₁ with
  | zero => intro f₂ lines pos h1 h2; omega
  | succ f ih =>
    intro f₂ lines pos h1 h2
    cases f₂ with
    | zero => omega
    | succ g =>
      rw [processFromF_succ, processFromF_succ]
      cases hf : find_token lines pos with
      | error e => rfl
      | ok o =>
        cases o with
        | none => rfl
        | some kt =>
          obtain ⟨b, tok⟩ := kt
          dsimp only
          cases he : regionEnd lines b tok.kind with
          | error e => rfl
          | ok e =>
            dsimp only
            have hb : pos ≤ b := find_token_ge hf
            have hpos : pos < lines.length := find_token_pos_lt hf
            have hbe : b < e := regionEnd_gt he
            have hnp : e ≤ blockNext lines b e tok.properties := blockNext_ge tok.properties
            rw [@ih g lines (blockNext lines b e tok.properties) (by omega) (by omega)]

theorem processFromF_congr : ∀ (f : Nat) {lines lines' : List Line} {pos : Nat},
    lines.length = lines'.length →
    lines.drop (pos - 1) = lines'.drop (pos - 1) →
    processFromF f lines pos = processFromF f lines' pos := by
  intro f
  induction f with
  | zero => intros; rfl
  | succ f ih =>
    intro lines lines' pos hlen h
    have hdp : lines.drop pos = lines'.drop pos := dropEq_mono h (by omega)
    have hft : find_token lines pos = find_token lines' pos := by
      unfold find_token; rw [hdp]
    rw [processFromF_succ, processFromF_succ, hft]
    cases hv : find_token lines' pos with
    | error e => rfl
    | ok o =>
      cases o with
      | none => rw [hdp]
      | some kt =>
        obtain ⟨b, tok⟩ := kt
        dsimp only
        have hb : pos ≤ b := find_token_ge (hft ▸ hv)
        have hre : regionEnd lines b tok.kind = regionEnd lines' b tok.kind := by
          unfold regionEnd
          cases tok.kind with
          | EndPrivate => rfl
          | Private => rfl
          | BeginPrivate =>
            rw [hlen]
            exact resolveEnd_congr _ (dropEq_mono h (by omega))
        rw [hre]
        cases he : regionEnd lines' b tok.kind with
        | error e => rfl
        | ok e =>
          dsimp only
          have hbe : b < e := regionEnd_gt he
          have hgb : lines.getD (b - 1) [] = lines'.getD (b - 1) [] :=
            getD_eq_of_dropEq h (by omega)
          have hge : lines.getD e [] = lines'.getD e [] :=
            getD_eq_of_dropEq h (by omega)
          have hgb2 : lines.getD b [] = lines'.getD b [] :=
            getD_eq_of_dropEq h (by omega)
          have hbn : blockNext lines b e tok.properties =
              blockNext lines' b e tok.properties := by
            unfold blockNext
            rw [hgb, hge, hlen]
          have hemi : emission lines b tok.properties = emission lines' b tok.properties := by
            unfold emission
            rw [hgb2]
          have hnp : e ≤ blockNext lines' b e tok.properties := blockNext_ge tok.properties
          rw [hbn, hemi, hdp, ih hlen (dropEq_mono h (by omega))]

theorem processLines_no_directives {ls : List Line}
    (h : ∀ l ∈ ls, parse_token l = .ok none) :
    processLines ls = .ok (render ls) := by
  unfold processLines
  rw [processFromF_succ]
  have hft : find_token ls 0 = .ok none := by
    unfold find_token
    rw [List.drop_zero]
    exact aux_none ls h 0 0
  rw [hft]
  rw [List.drop_zero]

/-! Relating `render` and `rustLines`. -/

theorem splitInclusiveNL_append : ∀ (l t : List Char), '\n' ∉ l →
    splitInclusiveNL (l ++ '\n' :: t) = (l ++ ['\n']) :: splitInclusiveNL t := by
  intro l
  induction l with
  | nil => intro t _; simp [splitInclusiveNL]
  | cons c l ih =>
    intro t hm
    have hc : ¬ c = '\n' := fun hc => hm (by rw [hc]; exact List.mem_cons_self _ _)
    simp only [List.cons_append, splitInclusiveNL, if_neg hc, List.append_eq]
    rw [ih t (fun hx => hm (List.mem_cons_of_mem c hx))]

theorem lineMap_concat {l : List Char} (h : l.getLast? ≠ some '\r') :
    lineMap (l ++ ['\n']) = l := by
  simp [lineMap, h]

theorem rustLines_render : ∀ (ls : List Line),
    (∀ l ∈ ls, '\n' ∉ l ∧ l.getLast? ≠ some '\r') →
    rustLines (render ls) = ls := by
  intro ls
  induction ls with
  | nil => intro _; rfl
  | cons l t ih =>
    intro h
    have hl := h l (List.mem_cons_self l t)
    show rustLines (l ++ '\n' :: render t) = l :: t
    unfold rustLines
    rw [splitInclusiveNL_append _ _ hl.1]
    simp only [List.map_cons]
    rw [lineMap_concat hl.2]
    have ht := ih (fun x hx => h x (List.mem_cons_of_mem l hx))
    unfold rustLines at ht
    rw [ht]

/-! Lemmas about `findSub`, used for the keyword prefix-matching claim. -/

theorem isPrefixOf_append_true {pat u : List Char} (v : List Char)
    (h : pat.isPrefixOf u = true) : pat.isPrefixOf (u ++ v) = true := by
  rw [List.isPrefixOf_iff_prefix] at h ⊢
  exact h.trans (u.prefix_append v)

theorem isPrefixOf_append_false {pat u : List Char} (v : List Char)
    (h : pat.isPrefixOf u = false) (hlen : pat.length ≤ u.length) :
    pat.isPrefixOf (u ++ v) = false := by
  cases hb : pat.isPrefixOf (u ++ v)
  · rfl
  · exfalso
    rw [List.isPrefixOf_iff_prefix] at hb
    have hpre : pat <+: u := List.prefix_of_prefix_length_le hb (u.prefix_append v) hlen
    rw [← List.isPrefixOf_iff_prefix] at hpre
    rw [hpre] at h
    exact Bool.noConfusion h

theorem findSub_cons (pat : List Char) (c : Char) (rest : List Char) :
    findSub pat (c :: rest) =
      if pat.isPrefixOf (c :: rest) then some 0
      else (findSub pat rest).map (· + 1) := rfl

theorem findSub_at_zero {pat s : List Char} (h : pat.isPrefixOf s = true) :
    findSub pat s = some 0 := by
  cases s with
  | nil =>
    cases pat with
    | nil => rfl
    | cons a p =>
      rw [List.isPrefixOf_iff_prefix] at h
      have := h.length_le
      simp at this
  | cons c rest => rw [findSub_cons, if_pos h]

theorem findSub_append_left : ∀ {u pat : List Char} {i : Nat} (v : List Char),
    findSub pat u = some i → i + pat.length ≤ u.length →
    findSub pat (u ++ v) = some i := by
  intro u
  induction u with
  | nil =>
    intro pat i v h hlen
    simp only [List.length_nil] at hlen
    have hpe : pat = [] := List.eq_nil_of_length_eq_zero (by omega)
    subst hpe
    have h0 : findSub ([] : List Char) [] = some 0 := rfl
    rw [h0] at h
    have hi : i = 0 := (Option.some.inj h).symm
    subst hi
    exact findSub_at_zero (by rw [List.isPrefixOf_iff_prefix]; exact List.nil_prefix)
  | cons c u ih =>
    intro pat i v h hlen
    have hcu : (c :: u).length = u.length + 1 := List.length_cons c u
    by_cases hp : pat.isPrefixOf (c :: u) = true
    · rw [findSub_at_zero (isPrefixOf_append_true v hp)]
      rw [findSub_cons, if_pos hp] at h
      exact h
    · have hp' : pat.isPrefixOf (c :: u) = false := by
        cases hb : pat.isPrefixOf (c :: u)
        · rfl
        · exact absurd hb hp
      rw [findSub_cons, if_neg hp] at h
      obtain ⟨j, hj, hij⟩ := Option.map_eq_some'.mp h
      have hfalse : pat.isPrefixOf ((c :: u) ++ v) = false :=
        isPrefixOf_append_false v hp' (by omega)
      show findSub pat (c :: (u ++ v)) = some i
      rw [findSub_cons]
      rw [show pat.isPrefixOf (c :: (u ++ v)) = false from hfalse]
      simp only [Bool.false_eq_true, if_false]
      rw [ih v hj (by omega)]
      simp
      omega

theorem findSub_not_mem {c : Char} : ∀ {s : List Char}, c ∉ s → findSub [c] s = none := by
  intro s
  induction s with
  | nil => intro _; rfl
  | cons a rest ih =>
    intro h
    have hca : ([c].isPrefixOf (a :: rest)) = false := by
      simp [List.isPrefixOf]
      intro hc
      exact h (hc ▸ List.mem_cons_self a rest)
    rw [findSub, if_neg (by simp [hca])]
    rw [ih (fun hx => h (List.mem_cons_of_mem a hx))]
    rfl

/-! Lemmas about pruning. -/

theorem prune_foldl (spare : List String) :
    ∀ (names : List String) (acc : List (String × FsTree)),
      names.foldl
          (fun acc name => if spare.contains name then acc else removeEntry name acc) acc =
        acc.filter (fun e => spare.contains e.1 || !(names.contains e.1)) := by
  intro names
  induction names with
  | nil =>
    intro acc
    simp only [List.foldl_nil]
    rw [List.filter_eq_self.mpr]
    intro x _
    simp
  | cons n ns ih =>
    intro acc
    rw [List.foldl_cons]
    by_cases h : spare.contains n = true
    · rw [if_pos h, ih]
      apply List.filter_congr
      intro x _
      by_cases hx : x.1 = n
      · have hmem : x.1 ∈ spare := by rw [hx]; exact List.elem_iff.mp h
        simp [hmem]
      · simp [List.contains_cons, hx]
    · rw [if_neg h, ih]
      unfold removeEntry
      rw [List.filter_filter]
      apply List.filter_congr
      intro x _
      have hns : spare.contains n = false := by
        cases hb : spare.contains n
        · rfl
        · exact absurd hb h
      by_cases hx : x.1 = n
      · have hnm : n ∉ spare := fun hmem => h (List.elem_iff.mpr hmem)
        simp [List.contains_cons, hx, hnm]
      · simp [List.contains_cons, hx]

/-! Processing a file that starts with a redacted region after a
directive-free prefix. -/

theorem getD_of_drop {lines : List Line} {pos : Nat} {l : Line} {T : List Line}
    (h : lines.drop pos = l :: T) : lines.getD pos [] = l := by
  rw [List.getD_eq_getElem?_getD]
  have h1 := List.getElem?_drop lines pos 0
  rw [h] at h1
  simp at h1
  rw [← h1]
  rfl

theorem emission_eq_hintFor {lines : List Line} {b : Nat} {l : Line} {T : List Line}
    (props : List TokenProperty) (h : lines.drop b = l :: T) :
    emission lines b props = hintFor props (indentOf l) := by
  unfold emission hintFor
  rw [getD_of_drop h]

theorem processPrivate (P T : List Line) (pl : Line) (props : List TokenProperty)
    (hP : ∀ l ∈ P, parse_token l = .ok none)
    (hpl : parse_token pl = .ok (some ⟨.Private, props⟩)) :
    processLines (P ++ pl :: T) =
      (processFromF (P ++ pl :: T).length (P ++ pl :: T)
          (blockNext (P ++ pl :: T) P.length (P.length + 1) props)).map
        (fun r => render P ++ (hintFor props (indentOf pl) ++ r)) := by
  have h0 : (P ++ pl :: T).drop 0 = P ++ (pl :: T) := by simp
  have hsafe : ScanSafe (pl :: T) := ScanSafe.hit _ hpl
  show processFromF ((P ++ pl :: T).length + 1) (P ++ pl :: T) 0 = _
  rw [skipPrefix P (P ++ pl :: T).length hP h0 hsafe]
  simp only [Nat.zero_add]
  have hd : (P ++ pl :: T).drop P.length = pl :: T := List.drop_left P (pl :: T)
  have he : regionEnd (P ++ pl :: T) P.length (TokenKind.Private) = .ok (P.length + 1) := rfl
  rw [emitStep (P ++ pl :: T).length hd hpl he]
  rw [emission_eq_hintFor props hd]
  cases hrec : processFromF (P ++ pl :: T).length (P ++ pl :: T)
      (blockNext (P ++ pl :: T) P.length (P.length + 1) props) with
  | error e => simp [Except.map]
  | ok rr => simp [Except.map]

theorem processBlock (P I S : List Line) (bl el : Line) (props pe : List TokenProperty)
    (hP : ∀ l ∈ P, parse_token l = .ok none)
    (hbl : parse_token bl = .ok (some ⟨.BeginPrivate, props⟩))
    (hI : ∀ l ∈ I, parse_token l = .ok none ∨ ∃ ps, parse_token l = .ok (some ⟨.Private, ps⟩))
    (hel : parse_token el = .ok (some ⟨.EndPrivate, pe⟩)) :
    processLines (P ++ bl :: (I ++ el :: S)) =
      (processFromF (P ++ bl :: (I ++ el :: S)).length (P ++ bl :: (I ++ el :: S))
          (blockNext (P ++ bl :: (I ++ el :: S)) P.length (P.length + I.length + 2) props)).map
        (fun r => render P ++ (hintFor props (indentOf bl) ++ r)) := by
  have h0 : (P ++ bl :: (I ++ el :: S)).drop 0 = P ++ (bl :: (I ++ el :: S)) := by simp
  have hsafe : ScanSafe (bl :: (I ++ el :: S)) := ScanSafe.hit _ hbl
  show processFromF ((P ++ bl :: (I ++ el :: S)).length + 1) (P ++ bl :: (I ++ el :: S)) 0 = _
  rw [skipPrefix P (P ++ bl :: (I ++ el :: S)).length hP h0 hsafe]
  simp only [Nat.zero_add]
  have hd : (P ++ bl :: (I ++ el :: S)).drop P.length = bl :: (I ++ el :: S) :=
    List.drop_left P (bl :: (I ++ el :: S))
  have hd1 : (P ++ bl :: (I ++ el :: S)).drop (P.length + 1) = I ++ el :: S :=
    drop_succ_of_drop hd
  have hlen : (P ++ bl :: (I ++ el :: S)).length = P.length + I.length + S.length + 2 := by
    simp [List.length_append, List.length_cons]
    omega
  have hIlen : I.length < (P ++ bl :: (I ++ el :: S)).length + 1 := by omega
  have he : regionEnd (P ++ bl :: (I ++ el :: S)) P.length (TokenKind.BeginPrivate) =
      .ok (P.length + I.length + 2) := by
    unfold regionEnd
    have harith : P.length + 1 + I.length + 1 = P.length + I.length + 2 := by omega
    rw [resolveEnd_interior I _ _ _ hIlen hd1 hI hel, harith]
  rw [emitStep (P ++ bl :: (I ++ el :: S)).length hd hbl he]
  rw [emission_eq_hintFor props hd]
  cases hrec : processFromF (P ++ bl :: (I ++ el :: S)).length (P ++ bl :: (I ++ el :: S))
      (blockNext (P ++ bl :: (I ++ el :: S)) P.length (P.length + I.length + 2) props) with
  | error e => simp [Except.map]
  | ok rr => simp [Except.map]

theorem except_map_congr {α β : Type} {x : Except String α} {f g : α → β}
    (h : ∀ a, f a = g a) : x.map f = x.map g := by
  cases x <;> simp [Except.map, h]

theorem getD_pred_append {P X : List Line} (h : 0 < P.length) :
    (P ++ X).getD (P.length - 1) [] = P.getLastD [] := by
  rw [List.getD_eq_getElem?_getD, List.getLastD_eq_getLast?, List.getLast?_eq_getElem?]
  rw [List.getElem?_append, if_pos (by omega)]

theorem getD_head_of_drop {lines S : List Line} {e : Nat} (h : lines.drop e = S) :
    lines.getD e [] = S.headD [] := by
  rw [List.getD_eq_getElem?_getD]
  have h1 := List.getElem?_drop lines e 0
  rw [h, Nat.add_zero] at h1
  rw [← h1]
  cases S <;> simp

theorem drop_to_S (P I S : List Line) (bl el : Line) :
    (P ++ bl :: (I ++ el :: S)).drop (P.length + I.length + 2) = S := by
  have hsplit : P ++ bl :: (I ++ el :: S) = (P ++ bl :: (I ++ [el])) ++ S := by
    simp
  rw [hsplit, List.drop_left']
  simp only [List.length_append, List.length_cons, List.length_nil]
  omega

theorem drop_to_el (P I S : List Line) (bl el : Line) :
    (P ++ bl :: (I ++ el :: S)).drop (P.length + I.length + 1) = el :: S := by
  have hsplit : P ++ bl :: (I ++ el :: S) = (P ++ bl :: I) ++ el :: S := by
    simp
  rw [hsplit, List.drop_left']
  simp only [List.length_append, List.length_cons]
  omega

/-- Claim C2: the spec says the parenthesized property list is split on
commas and every recognized keyword is accepted, so
`private(no_hint,unimplemented)` should parse to the set of both
properties.  The source uses `split_inclusive(",")`, which keeps the comma
on every piece but the last, so every list of two or more recognized
properties fails with "unknown property"; a single recognized property
still parses. -/
theorem c2_multi_property_fails :
    parse_token "// compose::private(no_hint,unimplemented)".data =
      .error "unknown property: no_hint," ∧
    parse_token "// compose::private(unimplemented,no_hint)".data =
      .error "unknown property: unimplemented," ∧
    parse_token "// compose::private(no_hint)".data = .ok (some ⟨.Private, [.NoHint]⟩) ∧
    parse_token "// compose::private(unimplemented)".data =
      .ok (some ⟨.Private, [.Unimplemented]⟩) :=
  ⟨rfl, rfl, rfl, rfl⟩

/-- Claim C3: the error context of `find_token` prints `rel + 1` where
`rel` counts lines from the start of the scan, not from the start of the
file.  On the file whose second line is malformed and whose first line is
a `Private` directive, the scan restarts at line index 1 and the message
names line 1, although the offending line is line 2 of the file. -/
theorem c3_relative_line_number :
    rustLines "// compose::private\n// compose::oops\n".data =
      ["// compose::private".data, "// compose::oops".data] ∧
    process_source "// compose::private\n// compose::oops\n".data =
      .error "failed to parse token on line 1: unknown compose command: oops" :=
  ⟨rfl, rfl⟩

/-- Claim C4 counterexample: a directive-free input that does not end in a
newline, and one using a CRLF ending, are both changed by the engine:
the output always terminates every line with a bare `'\n'`. -/
theorem c4_identity_counterexample :
    rustLines "foo".data = ["foo".data] ∧
    parse_token "foo".data = .ok none ∧
    process_source "foo".data = .ok "foo\n".data ∧
    "foo\n".data ≠ "foo".data ∧
    rustLines "a\r\n".data = ["a".data] ∧
    process_source "a\r\n".data = .ok "a\n".data ∧
    "a\n".data ≠ "a\r\n".data :=
  ⟨rfl, rfl, rfl, by decide, rfl, rfl, by decide⟩

/-- Claim C4 (amended): for a directive-free input that is a rendering of
lines — every line is `'\n'`-terminated, contains no interior newline and
does not end in `'\r'` — the Transformed Source equals the input character
for character. -/
theorem c4_identity_amended (ls : List Line)
    (hshape : ∀ l ∈ ls, '\n' ∉ l ∧ l.getLast? ≠ some '\r')
    (hdir : ∀ l ∈ ls, parse_token l = .ok none) :
    process_source (render ls) = .ok (render ls) := by
  unfold process_source
  rw [rustLines_render ls hshape]
  exact processLines_no_directives hdir

/-- Witness for the amended C4 at a concrete two-line input. -/
theorem c4_identity_amended_witness :
    process_source "foo();\nbar();\n".data = .ok "foo();\nbar();\n".data := by
  have h := c4_identity_amended ["foo();".data, "bar();".data] (by decide) (by decide)
  exact h

/-- Claim C5: when the first directive of the scan is an `EndPrivate`, the
engine fails with the unpaired-end message naming the directive's 1-based
line number within the file. -/
theorem c5_unpaired_end_private (P R : List Line) (el : Line) (ps : List TokenProperty)
    (hP : ∀ l ∈ P, parse_token l = .ok none)
    (hel : parse_token el = .ok (some ⟨.EndPrivate, ps⟩)) :
    processLines (P ++ el :: R) =
      .error ("unpaired 'end_private' on line " ++ toString (P.length + 1)) := by
  have h0 : (P ++ el :: R).drop 0 = P ++ (el :: R) := by simp
  show processFromF ((P ++ el :: R).length + 1) (P ++ el :: R) 0 = _
  rw [skipPrefix P (P ++ el :: R).length hP h0 (ScanSafe.hit _ hel)]
  simp only [Nat.zero_add]
  have hd : (P ++ el :: R).drop P.length = el :: R := List.drop_left P (el :: R)
  have hft : find_token (P ++ el :: R) P.length =
      .ok (some (P.length, ⟨.EndPrivate, ps⟩)) := by
    unfold find_token
    rw [hd, aux_hit _ _ _ hel]
    norm_num
  rw [processFromF_succ, hft]
  simp [regionEnd, Except.map]

/-- Witness for C5: the literal fixture of the spec fails naming line 2. -/
theorem c5_unpaired_end_private_witness :
    process_source "foo();\n// compose::end_private\n".data =
      .error "unpaired 'end_private' on line 2" := by
  have h := c5_unpaired_end_private ["foo();".data] [] "// compose::end_private".data []
    (by decide) rfl
  exact h

/-- Claim C8: pruning removes exactly the top-level entries whose name is
not in the Spare Set, deleting a removed directory together with its whole
subtree, and leaves spared entries untouched; instantiated on the spec's
scenario with Spare Set from declared entry `a.rs` and destination top
level `a.rs, old_dir/`. -/
theorem c8_prune_exact :
    (∀ (spare : List String) (st : List (String × FsTree)),
        prune_entries spare st = st.filter (fun e => spare.contains e.1)) ∧
    prune_entries (spareSet ["a.rs"] [] [])
        [("a.rs", FsTree.file), ("old_dir", FsTree.dir [("x.rs", FsTree.file)])] =
      [("a.rs", FsTree.file)] := by
  constructor
  · intro spare st
    unfold prune_entries
    rw [prune_foldl]
    apply List.filter_congr
    intro x hx
    have hmem : (st.map Prod.fst).contains x.1 = true :=
      List.elem_iff.mpr (List.mem_map_of_mem Prod.fst hx)
    rw [hmem]
    simp
  · rfl

/-- Claim C10: the scan cursor strictly increases — a found directive is at
or after the cursor, and a resolved region end exceeds the directive line —
so the loop's result is independent of the fuel once the fuel exceeds the
number of remaining lines: the iteration count is bounded by the number of
lines of the file. -/
theorem c10_termination :
    (∀ (lines : List Line) (pos k : Nat) (t : Token),
        find_token lines pos = .ok (some (k, t)) → pos ≤ k) ∧
    (∀ (fuel : Nat) (lines : List Line) (p b e : Nat),
        resolveEnd fuel lines p b = .ok e → p < e) ∧
    (∀ (lines : List Line) (b e : Nat) (kd : TokenKind),
        regionEnd lines b kd = .ok e → b + 1 ≤ e) ∧
    (∀ (lines : List Line) (pos f₁ f₂ : Nat),
        lines.length - pos < f₁ → lines.length - pos < f₂ →
        processFromF f₁ lines pos = processFromF f₂ lines pos) :=
  ⟨fun _ _ _ _ h => find_token_ge h,
   fun f _ _ _ _ h => resolveEnd_lt f h,
   fun _ _ _ _ h => regionEnd_gt h,
   fun _ _ f₁ _ h1 h2 => processFromF_stable f₁ h1 h2⟩

/-- Witness for C10 at concrete inputs. -/
theorem c10_termination_witness :
    (0 : Nat) ≤ 0 ∧ (1 : Nat) < 2 ∧ (0 : Nat) + 1 ≤ 1 ∧
      processFromF 2 ["foo();".data] 0 = processFromF 3 ["foo();".data] 0 :=
  ⟨c10_termination.1 ["// compose::private".data] 0 0 ⟨.Private, []⟩ rfl,
   c10_termination.2.1 5 [[], "// compose::end_private".data] 1 0 2 rfl,
   c10_termination.2.2.1 [] 0 1 .Private rfl,
   c10_termination.2.2.2 ["foo();".data] 0 2 3 (by decide) (by decide)⟩

theorem isPrefixOf_cons_false {a b : Char} (pat u : List Char) (h : ¬ a = b) :
    (a :: pat).isPrefixOf (b :: u) = false := by
  show (a == b && pat.isPrefixOf u) = false
  have hab : (a == b) = false := by simp [h]
  rw [hab, Bool.false_and]

/-- Claim C9: when the text after `compose::` begins with one of the three
keywords followed by leftover text (that contains no parenthesis), the
parser still decodes the kind by prefix matching instead of failing with
"unknown command", and the leftover is consumed silently. -/
theorem c9_keyword_prefix_matching (k : TokenKind) (extra : List Char)
    (hp : '(' ∉ extra) :
    parse_token ("// compose::".data ++ (kwChars k ++ extra)) = .ok (some ⟨k, []⟩) := by
  have h0 : findSub "//".data ("// compose::".data ++ (kwChars k ++ extra)) = some 0 :=
    findSub_at_zero (isPrefixOf_append_true _ (by decide))
  have h1 : findSub "compose::".data ("// compose::".data ++ (kwChars k ++ extra)) =
      some 3 :=
    findSub_append_left _ (by decide) (by decide)
  have hcmd : ("// compose::".data ++ (kwChars k ++ extra)).drop (3 + "compose::".length) =
      kwChars k ++ extra := by
    rw [show 3 + "compose::".length = ("// compose::".data).length from rfl]
    exact List.drop_left _ _
  have hparen : findSub ['('] (kwChars k ++ extra) = none := by
    apply findSub_not_mem
    intro hmem
    rcases List.mem_append.mp hmem with h | h
    · cases k <;> revert h <;> decide
    · exact hp h
  cases k with
  | Private =>
    have hA : ("private".data).isPrefixOf ("private".data ++ extra) = true :=
      isPrefixOf_append_true _ (by decide)
    simp only [kwChars] at h0 h1 hcmd hparen ⊢
    unfold parse_token
    rw [h0]
    simp only [List.drop_zero, h1, hcmd, hA, if_true, hparen]
    rfl
  | BeginPrivate =>
    have hA : ("private".data).isPrefixOf ("begin_private".data ++ extra) = false :=
      isPrefixOf_append_false _ (by decide) (by decide)
    have hB : ("begin_private".data).isPrefixOf ("begin_private".data ++ extra) = true :=
      isPrefixOf_append_true _ (by decide)
    simp only [kwChars] at h0 h1 hcmd hparen ⊢
    unfold parse_token
    rw [h0]
    simp only [List.drop_zero, h1, hcmd, hA, hB, if_true, Bool.false_eq_true, if_false,
      hparen]
    rfl
  | EndPrivate =>
    have hA : ("private".data).isPrefixOf ("end_private".data ++ extra) = false :=
      isPrefixOf_append_false _ (by decide) (by decide)
    have hB : ("begin_private".data).isPrefixOf ("end_private".data ++ extra) = false := by
      show (('b' :: "egin_private".data).isPrefixOf
        ('e' :: ("nd_private".data ++ extra))) = false
      exact isPrefixOf_cons_false _ _ (by decide)
    have hC : ("end_private".data).isPrefixOf ("end_private".data ++ extra) = true :=
      isPrefixOf_append_true _ (by decide)
    simp only [kwChars] at h0 h1 hcmd hparen ⊢
    unfold parse_token
    rw [h0]
    simp only [List.drop_zero, h1, hcmd, hA, hB, hC, if_true, Bool.false_eq_true, if_false,
      hparen]
    rfl

/-- Witness for C9: `compose::privateX` still decodes as a `Private`
directive. -/
theorem c9_keyword_prefix_matching_witness :
    parse_token ("// compose::".data ++ (kwChars .Private ++ ['X'])) =
      .ok (some ⟨.Private, []⟩) :=
  c9_keyword_prefix_matching .Private ['X'] (by decide)

/-- Claim C7: a region whose directive does not carry `NoHint` emits
exactly one placeholder line with the directive line's leading whitespace,
plus, exactly when `Unimplemented` is set, one more line with the same
leading whitespace holding the deterministically failing statement; the
cursor then moves to the region end.  Stated for both region forms: a
single-line `Private` region and a `BeginPrivate ... EndPrivate` block. -/
theorem c7_hint_emission :
    (∀ (P T : List Line) (pl : Line) (props : List TokenProperty),
      (∀ l ∈ P, parse_token l = .ok none) →
      parse_token pl = .ok (some ⟨.Private, props⟩) →
      props.contains .NoHint = false →
      processLines (P ++ pl :: T) =
        (processFromF (P ++ pl :: T).length (P ++ pl :: T) (P.length + 1)).map
          (fun r => render P ++
            (indentOf pl ++ "// TODO: your code here.\n".data ++
              ((if props.contains .Unimplemented then
                  indentOf pl ++ "unimplemented!()\n".data
                else []) ++ r)))) ∧
    (∀ (P I S : List Line) (bl el : Line) (props pe : List TokenProperty),
      (∀ l ∈ P, parse_token l = .ok none) →
      parse_token bl = .ok (some ⟨.BeginPrivate, props⟩) →
      (∀ l ∈ I, parse_token l = .ok none ∨
        ∃ ps, parse_token l = .ok (some ⟨.Private, ps⟩)) →
      parse_token el = .ok (some ⟨.EndPrivate, pe⟩) →
      props.contains .NoHint = false →
      processLines (P ++ bl :: (I ++ el :: S)) =
        (processFromF (P ++ bl :: (I ++ el :: S)).length (P ++ bl :: (I ++ el :: S))
            (P.length + I.length + 2)).map
          (fun r => render P ++
            (indentOf bl ++ "// TODO: your code here.\n".data ++
              ((if props.contains .Unimplemented then
                  indentOf bl ++ "unimplemented!()\n".data
                else []) ++ r)))) := by
  constructor
  · intro P T pl props hP hpl hno
    rw [processPrivate P T pl props hP hpl]
    have hbn : blockNext (P ++ pl :: T) P.length (P.length + 1) props = P.length + 1 := by
      unfold blockNext
      rw [hno]
      simp
    rw [hbn]
    apply except_map_congr
    intro a
    unfold hintFor
    rw [hno]
    simp [List.append_assoc]
  · intro P I S bl el props pe hP hbl hI hel hno
    rw [processBlock P I S bl el props pe hP hbl hI hel]
    have hbn : blockNext (P ++ bl :: (I ++ el :: S)) P.length (P.length + I.length + 2)
        props = P.length + I.length + 2 := by
      unfold blockNext
      rw [hno]
      simp
    rw [hbn]
    apply except_map_congr
    intro a
    unfold hintFor
    rw [hno]
    simp [List.append_assoc]

/-- Witness for C7 at a concrete indented `Private(unimplemented)` line. -/
theorem c7_hint_emission_witness :
    processLines ([] ++ "  // compose::private(unimplemented)".data :: ["x();".data]) =
      (processFromF ([] ++ "  // compose::private(unimplemented)".data :: ["x();".data]).length
          ([] ++ "  // compose::private(unimplemented)".data :: ["x();".data])
          (List.length ([] : List Line) + 1)).map
        (fun r => render [] ++
          (indentOf "  // compose::private(unimplemented)".data ++
            "// TODO: your code here.\n".data ++
            ((if List.contains [TokenProperty.Unimplemented] .Unimplemented then
                indentOf "  // compose::private(unimplemented)".data ++
                  "unimplemented!()\n".data
              else []) ++ r))) :=
  c7_hint_emission.1 [] ["x();".data] "  // compose::private(unimplemented)".data
    [.Unimplemented] (by decide) rfl rfl

/-- Claim C6: a `NoHint` region emits no placeholder; the cursor advances
past the region end (absorbing one blank line) exactly when the line before
the region and the line at the region end both exist and are blank, and to
the region end otherwise.  Stated for both region forms: a single-line
`Private` region and a `BeginPrivate ... EndPrivate` block, which share the
code path. -/
theorem c6_nohint_blank_absorption :
    (∀ (P T : List Line) (pl : Line) (props : List TokenProperty),
      (∀ l ∈ P, parse_token l = .ok none) →
      parse_token pl = .ok (some ⟨.Private, props⟩) →
      props.contains .NoHint = true →
      processLines (P ++ pl :: T) =
        (processFromF (P ++ pl :: T).length (P ++ pl :: T)
            (if 0 < P.length ∧ isBlank (P.getLastD []) = true ∧ 0 < T.length ∧
                isBlank (T.headD []) = true
             then P.length + 2 else P.length + 1)).map
          (fun r => render P ++ r)) ∧
    (∀ (P I S : List Line) (bl el : Line) (props pe : List TokenProperty),
      (∀ l ∈ P, parse_token l = .ok none) →
      parse_token bl = .ok (some ⟨.BeginPrivate, props⟩) →
      (∀ l ∈ I, parse_token l = .ok none ∨
        ∃ ps, parse_token l = .ok (some ⟨.Private, ps⟩)) →
      parse_token el = .ok (some ⟨.EndPrivate, pe⟩) →
      props.contains .NoHint = true →
      processLines (P ++ bl :: (I ++ el :: S)) =
        (processFromF (P ++ bl :: (I ++ el :: S)).length (P ++ bl :: (I ++ el :: S))
            (if 0 < P.length ∧ isBlank (P.getLastD []) = true ∧ 0 < S.length ∧
                isBlank (S.headD []) = true
             then P.length + I.length + 3 else P.length + I.length + 2)).map
          (fun r => render P ++ r)) := by
  constructor
  · intro P T pl props hP hpl hno
    rw [processPrivate P T pl props hP hpl]
    have hlen : (P ++ pl :: T).length = P.length + T.length + 1 := by
      simp [List.length_append, List.length_cons]
      omega
    have hdT : (P ++ pl :: T).drop (P.length + 1) = T :=
      drop_succ_of_drop (List.drop_left P (pl :: T))
    have hgde : (P ++ pl :: T).getD (P.length + 1) [] = T.headD [] :=
      getD_head_of_drop hdT
    have hbn : blockNext (P ++ pl :: T) P.length (P.length + 1) props =
        (if 0 < P.length ∧ isBlank (P.getLastD []) = true ∧ 0 < T.length ∧
            isBlank (T.headD []) = true
         then P.length + 2 else P.length + 1) := by
      unfold blockNext
      rw [hno]
      simp only [if_true]
      apply if_congr
      · constructor
        · rintro ⟨h1, h2, h3, h4⟩
          rw [getD_pred_append h1] at h2
          rw [hgde] at h4
          exact ⟨h1, h2, by omega, h4⟩
        · rintro ⟨h1, h2, h3, h4⟩
          rw [← getD_pred_append h1] at h2
          rw [← hgde] at h4
          exact ⟨h1, h2, by omega, h4⟩
      · omega
      · rfl
    rw [hbn]
    apply except_map_congr
    intro a
    unfold hintFor
    rw [hno]
    simp
  · intro P I S bl el props pe hP hbl hI hel hno
    rw [processBlock P I S bl el props pe hP hbl hI hel]
    have hlen : (P ++ bl :: (I ++ el :: S)).length =
        P.length + I.length + S.length + 2 := by
      simp [List.length_append, List.length_cons]
      omega
    have hgde : (P ++ bl :: (I ++ el :: S)).getD (P.length + I.length + 2) [] =
        S.headD [] :=
      getD_head_of_drop (drop_to_S P I S bl el)
    have hbn : blockNext (P ++ bl :: (I ++ el :: S)) P.length (P.length + I.length + 2)
        props =
        (if 0 < P.length ∧ isBlank (P.getLastD []) = true ∧ 0 < S.length ∧
            isBlank (S.headD []) = true
         then P.length + I.length + 3 else P.length + I.length + 2) := by
      unfold blockNext
      rw [hno]
      simp only [if_true]
      apply if_congr
      · constructor
        · rintro ⟨h1, h2, h3, h4⟩
          rw [getD_pred_append h1] at h2
          rw [hgde] at h4
          exact ⟨h1, h2, by omega, h4⟩
        · rintro ⟨h1, h2, h3, h4⟩
          rw [← getD_pred_append h1] at h2
          rw [← hgde] at h4
          exact ⟨h1, h2, by omega, h4⟩
      · omega
      · rfl
    rw [hbn]
    apply except_map_congr
    intro a
    unfold hintFor
    rw [hno]
    simp

/-- Witness for C6, exercising both region forms: a single `Private`
no-hint line and a block, each sitting between a blank line and a blank
line, so the cursor moves to the region end plus one and a single blank
line remains. -/
theorem c6_nohint_blank_absorption_witness :
    (processLines (["a();".data, " ".data] ++
        "// compose::private(no_hint)".data :: ["".data, "b();".data]) =
      (processFromF (["a();".data, " ".data] ++
            "// compose::private(no_hint)".data :: ["".data, "b();".data]).length
          (["a();".data, " ".data] ++
            "// compose::private(no_hint)".data :: ["".data, "b();".data])
          (if 0 < (["a();".data, " ".data] : List Line).length ∧
              isBlank ((["a();".data, " ".data] : List Line).getLastD []) = true ∧
              0 < (["".data, "b();".data] : List Line).length ∧
              isBlank ((["".data, "b();".data] : List Line).headD []) = true
           then (["a();".data, " ".data] : List Line).length + 2
           else (["a();".data, " ".data] : List Line).length + 1)).map
        (fun r => render ["a();".data, " ".data] ++ r)) ∧
    processLines (["a();".data, " ".data] ++
        "// compose::begin_private(no_hint)".data ::
          (["secret();".data] ++ "// compose::end_private".data ::
            ["".data, "b();".data])) =
      (processFromF (["a();".data, " ".data] ++
            "// compose::begin_private(no_hint)".data ::
              (["secret();".data] ++ "// compose::end_private".data ::
                ["".data, "b();".data])).length
          (["a();".data, " ".data] ++
            "// compose::begin_private(no_hint)".data ::
              (["secret();".data] ++ "// compose::end_private".data ::
                ["".data, "b();".data]))
          (if 0 < (["a();".data, " ".data] : List Line).length ∧
              isBlank ((["a();".data, " ".data] : List Line).getLastD []) = true ∧
              0 < (["".data, "b();".data] : List Line).length ∧
              isBlank ((["".data, "b();".data] : List Line).headD []) = true
           then (["a();".data, " ".data] : List Line).length +
              (["secret();".data] : List Line).length + 3
           else (["a();".data, " ".data] : List Line).length +
              (["secret();".data] : List Line).length + 2)).map
        (fun r => render ["a();".data, " ".data] ++ r) :=
  ⟨c6_nohint_blank_absorption.1 ["a();".data, " ".data] ["".data, "b();".data]
      "// compose::private(no_hint)".data [.NoHint] (by decide) rfl rfl,
   c6_nohint_blank_absorption.2 ["a();".data, " ".data] ["secret();".data]
      ["".data, "b();".data] "// compose::begin_private(no_hint)".data
      "// compose::end_private".data [.NoHint] [] (by decide) rfl
      (by intro l hl; rw [List.mem_singleton] at hl; subst hl; exact Or.inl rfl) rfl rfl⟩

/-- Claim C1: a well-formed `BeginPrivate ... EndPrivate` block whose
interior holds only ordinary content and `Private` directive lines is
replaced, after the verbatim copy of the directive-free prefix, by exactly
the placeholder lines `hintFor` dictates — none under `NoHint`, one or two
otherwise — after which scanning resumes at the cursor `blockNext`
dictates.  Moreover the output does not depend on the interior at all: any
other interior of the same length (ordinary content or `Private` lines)
yields the identical output, so an interior `Private` directive neither
closes nor otherwise affects the block and no interior line reaches the
output. -/
theorem c1_block_redaction (P I I' S : List Line) (bl el : Line)
    (props pe : List TokenProperty)
    (hP : ∀ l ∈ P, parse_token l = .ok none)
    (hbl : parse_token bl = .ok (some ⟨.BeginPrivate, props⟩))
    (hI : ∀ l ∈ I, parse_token l = .ok none ∨
      ∃ ps, parse_token l = .ok (some ⟨.Private, ps⟩))
    (hel : parse_token el = .ok (some ⟨.EndPrivate, pe⟩))
    (hI' : ∀ l ∈ I', parse_token l = .ok none ∨
      ∃ ps, parse_token l = .ok (some ⟨.Private, ps⟩))
    (hlen' : I'.length = I.length) :
    (processLines (P ++ bl :: (I ++ el :: S)) =
      (processFromF (P ++ bl :: (I ++ el :: S)).length (P ++ bl :: (I ++ el :: S))
          (blockNext (P ++ bl :: (I ++ el :: S)) P.length (P.length + I.length + 2)
            props)).map
        (fun r => render P ++ (hintFor props (indentOf bl) ++ r))) ∧
    processLines (P ++ bl :: (I ++ el :: S)) =
      processLines (P ++ bl :: (I' ++ el :: S)) := by
  have e1 := processBlock P I S bl el props pe hP hbl hI hel
  refine ⟨e1, ?_⟩
  have e2 := processBlock P I' S bl el props pe hP hbl hI' hel
  rw [e1, e2, hlen']
  have hlen12 : (P ++ bl :: (I ++ el :: S)).length =
      (P ++ bl :: (I' ++ el :: S)).length := by
    simp only [List.length_append, List.length_cons]
    omega
  have hdropel2 : (P ++ bl :: (I' ++ el :: S)).drop (P.length + I.length + 1) =
      el :: S := by
    have h := drop_to_el P I' S bl el
    rw [hlen'] at h
    exact h
  have hdropeq : (P ++ bl :: (I ++ el :: S)).drop (P.length + I.length + 1) =
      (P ++ bl :: (I' ++ el :: S)).drop (P.length + I.length + 1) := by
    rw [drop_to_el P I S bl el, hdropel2]
  have hgb : (P ++ bl :: (I ++ el :: S)).getD (P.length - 1) [] =
      (P ++ bl :: (I' ++ el :: S)).getD (P.length - 1) [] := by
    by_cases hp0 : 0 < P.length
    · rw [getD_pred_append hp0, getD_pred_append hp0]
    · have hP0 : P = [] := List.eq_nil_of_length_eq_zero (by omega)
      subst hP0
      rfl
  have hgeS2 : (P ++ bl :: (I' ++ el :: S)).drop (P.length + I.length + 2) = S := by
    have h := drop_to_S P I' S bl el
    rw [hlen'] at h
    exact h
  have hge : (P ++ bl :: (I ++ el :: S)).getD (P.length + I.length + 2) [] =
      (P ++ bl :: (I' ++ el :: S)).getD (P.length + I.length + 2) [] := by
    rw [getD_head_of_drop (drop_to_S P I S bl el), getD_head_of_drop hgeS2]
  have hbneq : blockNext (P ++ bl :: (I ++ el :: S)) P.length (P.length + I.length + 2)
      props =
      blockNext (P ++ bl :: (I' ++ el :: S)) P.length (P.length + I.length + 2) props := by
    unfold blockNext
    rw [hgb, hge, hlen12]
  rw [← hbneq, ← hlen12]
  have hnp : P.length + I.length + 2 ≤
      blockNext (P ++ bl :: (I ++ el :: S)) P.length (P.length + I.length + 2) props :=
    blockNext_ge props
  rw [processFromF_congr ((P ++ bl :: (I ++ el :: S)).length) hlen12
    (dropEq_mono hdropeq (by omega))]

/-- Witness for C1: a block with an interior `Private` line collapses to
one placeholder line, and swapping the interior for different content of
the same length leaves the output unchanged. -/
theorem c1_block_redaction_witness :
    (processLines (["a();".data] ++ "// compose::begin_private".data ::
        (["secret();".data, "// compose::private".data] ++
          "// compose::end_private".data :: ["b();".data])) =
      (processFromF (["a();".data] ++ "// compose::begin_private".data ::
            (["secret();".data, "// compose::private".data] ++
              "// compose::end_private".data :: ["b();".data])).length
          (["a();".data] ++ "// compose::begin_private".data ::
            (["secret();".data, "// compose::private".data] ++
              "// compose::end_private".data :: ["b();".data]))
          (blockNext (["a();".data] ++ "// compose::begin_private".data ::
              (["secret();".data, "// compose::private".data] ++
                "// compose::end_private".data :: ["b();".data]))
            (["a();".data] : List Line).length
            ((["a();".data] : List Line).length +
              (["secret();".data, "// compose::private".data] : List Line).length + 2)
            [])).map
        (fun r => render ["a();".data] ++
          (hintFor [] (indentOf "// compose::begin_private".data) ++ r))) ∧
    processLines (["a();".data] ++ "// compose::begin_private".data ::
        (["secret();".data, "// compose::private".data] ++
          "// compose::end_private".data :: ["b();".data])) =
      processLines (["a();".data] ++ "// compose::begin_private".data ::
        (["h1();".data, "h2();".data] ++
          "// compose::end_private".data :: ["b();".data])) :=
  c1_block_redaction ["a();".data] ["secret();".data, "// compose::private".data]
    ["h1();".data, "h2();".data] ["b();".data] "// compose::begin_private".data
    "// compose::end_private".data [] [] (by decide) rfl
    (by
      intro l hl
      rcases List.mem_cons.mp hl with rfl | hl
      · exact Or.inl rfl
      rcases List.mem_cons.mp hl with rfl | hl
      · exact Or.inr ⟨[], rfl⟩
      cases hl)
    rfl
    (by
      intro l hl
      rcases List.mem_cons.mp hl with rfl | hl
      · exact Or.inl rfl
      rcases List.mem_cons.mp hl with rfl | hl
      · exact Or.inl rfl
      cases hl)
    rfl
